import Mathlib

/-!
Verification of the document store and hybrid retrieval core of the
`Aipl` repository (`department_manager.py`, `query_services.py`).

The Python source is shallowly embedded: pure string manipulation is
translated to functions on `List Char` / `String`, the on-disk state of
`DepartmentManager` (FAISS index files, per-department chunk files)
becomes an explicit `ManagerState` record, and fallible operations
return `Except`.  External collaborators (the OpenAI embedding service
and the FAISS nearest-neighbour search) are passed in as oracle
parameters, exactly at the call boundary the Python code uses.
Floating-point BM25 scores are modelled as exact integer fractions with
a strictly positive denominator.
-/

/-! ## Python string primitives -/

/-- Python `str.lower()` restricted to ASCII (`A`-`Z` map to `a`-`z`,
everything else is unchanged).  All identifiers handled by the
repository (department names, filenames) are treated ASCII-wise. -/
def pyLower (c : Char) : Char :=
  if 65 ≤ c.toNat ∧ c.toNat ≤ 90 then Char.ofNat (c.toNat + 32) else c

/-- Python `str.upper()` restricted to ASCII. -/
def pyUpper (c : Char) : Char :=
  if 97 ≤ c.toNat ∧ c.toNat ≤ 122 then Char.ofNat (c.toNat - 32) else c

/-- `s.lower()` on whole strings. -/
def pyLowerStr (s : String) : String := String.mk (s.data.map pyLower)

/-- `s.upper()` on whole strings. -/
def pyUpperStr (s : String) : String := String.mk (s.data.map pyUpper)

/-- Whitespace characters recognised by Python's `str.split()` /
`str.strip()` (the ASCII ones that can occur in the repository's data). -/
def isWS (c : Char) : Bool :=
  c = ' ' || c = '\t' || c = '\n' || c = '\r'

/-- The characters replaced by `_` in `DepartmentManager._sanitize_name`,
from the regex `[<>:"/\\|?*]`. -/
def isDangerChar (c : Char) : Bool :=
  c = '<' || c = '>' || c = ':' || c = '"' || c = '/' || c = '\\' ||
  c = '|' || c = '?' || c = '*'

/-- Characters stripped by `name.strip('. ')`. -/
def isDotSpace (c : Char) : Bool := c = '.' || c = ' '

/-- Auxiliary to `removeDotRuns`: a dot is deleted exactly when its
original left or right neighbour is also a dot (that is, when it belongs
to a maximal run of two or more dots, which `re.sub(r'[\.]{2,}', '', _)`
deletes); `prev` is the original preceding character. -/
def rdrAux : Option Char → List Char → List Char
  | _, [] => []
  | prev, c :: rest =>
    if c = '.' ∧ (prev = some '.' ∨ rest.head? = some '.') then
      rdrAux (some c) rest
    else
      c :: rdrAux (some c) rest

/-- Python `re.sub(r'[\.]{2,}', '', name)`: delete every maximal run of
two or more consecutive dots, keep isolated dots. -/
def removeDotRuns (l : List Char) : List Char := rdrAux none l

/-- Python `re.sub(r'[<>:"/\\|?*]', '_', name)` on one character. -/
def replaceDanger (c : Char) : Char := if isDangerChar c then '_' else c

/-- Python `str.strip(chars)`: drop characters satisfying `p` from both
ends. -/
def stripChars (p : Char → Bool) (l : List Char) : List Char :=
  ((l.dropWhile p).reverse.dropWhile p).reverse

/-- The `if not name: name = "default"` fallback of
`DepartmentManager._sanitize_name`. -/
def sanitizeStep4 (l : List Char) : List Char :=
  if l = [] then "default".data else l

/-- `DepartmentManager._sanitize_name` on the character list: remove dot
runs, replace dangerous characters by `_`, strip leading/trailing dots
and spaces, fall back to `"default"` when empty, lower-case. -/
def sanitizeList (l : List Char) : List Char :=
  (sanitizeStep4 (stripChars isDotSpace
    ((removeDotRuns l).map replaceDanger))).map pyLower

/-- `DepartmentManager._sanitize_name` on strings. -/
def sanitizeName (s : String) : String := String.mk (sanitizeList s.data)

/-- Split a character list into the maximal groups of characters not
satisfying `p`, discarding separators (the semantics of Python's
`str.split()` with no argument, with `p` the whitespace test). -/
def splitGroups (p : Char → Bool) : List Char → List (List Char)
  | [] => []
  | c :: rest =>
    let gs := splitGroups p rest
    if p c then gs
    else
      match rest with
      | [] => [[c]]
      | d :: _ =>
        if p d then [c] :: gs
        else
          match gs with
          | [] => [[c]]
          | g :: gs2 => (c :: g) :: gs2

/-- `doc.lower().split()` from `QueryProcessor.process_query` step 2:
lower-case and tokenize on whitespace.  Tokens are kept as raw character
lists. -/
def tokenizeText (s : String) : List (List Char) :=
  splitGroups isWS (s.data.map pyLower)

/-! ## Exact scores

`rank_bm25` computes floating-point scores.  The model uses exact
fractions `num / den` with `0 < den`, compared by cross-multiplication,
so that every comparison the ranking step makes is decidable and
kernel-computable. -/

/-- An exact fraction with a strictly positive denominator. -/
structure Score where
  num : Int
  den : Int
  dpos : 0 < den

/-- Embed an integer. -/
def Score.ofInt (n : Int) : Score := ⟨n, 1, one_pos⟩

/-- Fraction addition (no normalisation). -/
def Score.add (x y : Score) : Score :=
  ⟨x.num * y.den + y.num * x.den, x.den * y.den, mul_pos x.dpos y.dpos⟩

/-- Fraction subtraction. -/
def Score.sub (x y : Score) : Score :=
  ⟨x.num * y.den - y.num * x.den, x.den * y.den, mul_pos x.dpos y.dpos⟩

/-- Fraction multiplication. -/
def Score.mul (x y : Score) : Score :=
  ⟨x.num * y.num, x.den * y.den, mul_pos x.dpos y.dpos⟩

/-- Fraction division.  When the divisor is not strictly positive the
result is a junk value `0`; in the BM25 computation below every divisor
is strictly positive whenever the corpus is the one the retrieval path
feeds in (a list of non-empty chunk texts), so the junk branch models
territory where the Python code would have raised `ZeroDivisionError`. -/
def Score.div (x y : Score) : Score :=
  if h : 0 < y.num then ⟨x.num * y.den, y.num * x.den, mul_pos h x.dpos⟩
  else Score.ofInt 0

/-- Strict comparison of fractions by cross-multiplication. -/
def sLT (x y : Score) : Prop := x.num * y.den < y.num * x.den

/-- Equality of the represented rational numbers. -/
def sEQ (x y : Score) : Prop := x.num * y.den = y.num * x.den

instance (x y : Score) : Decidable (sLT x y) :=
  inferInstanceAs (Decidable (x.num * y.den < y.num * x.den))

instance (x y : Score) : Decidable (sEQ x y) :=
  inferInstanceAs (Decidable (x.num * y.den = y.num * x.den))

/-! ## BM25-family lexical scorer

Modelled from the spec: the spec's `LexicalRanker` uses "a BM25-family
scoring function over whitespace/lowercase-normalized tokens"; the
concrete scorer in the repository is the external `rank_bm25` library
(`BM25Okapi`), which is a pip dependency, not repository code.  The
model keeps `BM25Okapi`'s structure (`k1 = 3/2`, `b = 3/4`, term
frequency saturation, document-length normalisation, document-frequency
based IDF) but replaces the logarithm inside the IDF by its rational
argument `(N - n + 1/2) / (n + 1/2)` — a monotone surrogate that keeps
every score an exact rational.  The ranking step built on top of the
scores (`np.argsort(...)[::-1][:top_k]`, line 24 of
`query_services.py`) is translated from the source. -/

/-- Number of documents of the tokenized corpus containing term `t`. -/
def docFreq (t : List Char) (corpus : List (List (List Char))) : Nat :=
  (corpus.filter (fun d => t ∈ d)).length

/-- IDF surrogate: `(N - n + 1/2) / (n + 1/2)` as an exact fraction
`(2*(N - n) + 1) / (2*n + 1)`. -/
def bm25Idf (t : List Char) (corpus : List (List (List Char))) : Score :=
  let N : Int := corpus.length
  let n : Int := docFreq t corpus
  ⟨2 * (N - n) + 1, 2 * n + 1, by positivity⟩

/-- One term's BM25 contribution for document number `i`:
`idf(t) * f*(k1+1) / (f + k1*(1 - b + b*dl/avgdl))` with `k1 = 3/2`,
`b = 3/4`. -/
def bm25Term (t : List Char) (corpus : List (List (List Char))) (i : Nat) : Score :=
  let doc := corpus.getD i []
  let f : Score := Score.ofInt (doc.count t)
  let dl : Score := Score.ofInt doc.length
  let total : Score := Score.ofInt ((corpus.map List.length).sum : Nat)
  let avgdl : Score := total.div (Score.ofInt (corpus.length : Nat))
  let k1 : Score := ⟨3, 2, by norm_num⟩
  let b : Score := ⟨3, 4, by norm_num⟩
  let one : Score := Score.ofInt 1
  let denom := f.add (k1.mul ((one.sub b).add (b.mul (dl.div avgdl))))
  (bm25Idf t corpus).mul ((f.mul (k1.add one)).div denom)

/-- BM25 score of document `i` for the tokenized query. -/
def bm25ScoreDoc (qtoks : List (List Char)) (corpus : List (List (List Char)))
    (i : Nat) : Score :=
  qtoks.foldr (fun t acc => acc.add (bm25Term t corpus i)) (Score.ofInt 0)

/-- `bm25.get_scores(tokenized_query)`: the score list over the corpus,
in corpus order. -/
def bm25AllScores (query : String) (docs : List String) : List Score :=
  let corpus := docs.map tokenizeText
  let qtoks := tokenizeText query
  (List.range docs.length).map (bm25ScoreDoc qtoks corpus)

/-- The total order on corpus positions that `np.argsort` realises on a
score list: ascending score, ties broken by ascending position (NumPy's
sort is an ascending stable insertion sort on arrays of the size the
repository handles). -/
def idxLE (s : List Score) (i j : Nat) : Prop :=
  sLT (s.getD i (Score.ofInt 0)) (s.getD j (Score.ofInt 0)) ∨
    (sEQ (s.getD i (Score.ofInt 0)) (s.getD j (Score.ofInt 0)) ∧ i ≤ j)

instance (s : List Score) (i j : Nat) : Decidable (idxLE s i j) :=
  inferInstanceAs (Decidable (_ ∨ _))

/-- `np.argsort(scores)`: positions sorted by ascending score. -/
def argsortAsc (s : List Score) : List Nat :=
  List.insertionSort (idxLE s) (List.range s.length)

/-- `np.argsort(bm25_scores)[::-1][:top_k]` (line 24 of
`query_services.py`). -/
def bm25TopIdx (query : String) (docs : List String) (k : Nat) : List Nat :=
  ((argsortAsc (bm25AllScores query docs)).reverse).take k

/-- `bm25_chunks = [docs[i] for i in bm25_top_idx]` (line 25). -/
def bm25Chunks (query : String) (docs : List String) (k : Nat) : List String :=
  (bm25TopIdx query docs k).map (fun i => docs.getD i "")

/-! ## Fusion (step 4 of `process_query`) -/

/-- The merge loop of `process_query` lines 42-47: walk the
concatenation, keep a chunk when it is not in `seen`, then add it to
`seen`.  `seen` is the set of already-kept texts, represented as a
list. -/
def hybridMergeAux (seen : List String) : List String → List String
  | [] => []
  | c :: rest =>
    if c ∈ seen then hybridMergeAux seen rest
    else c :: hybridMergeAux (c :: seen) rest

/-- `hybrid_chunks` for given lexical and vector candidate lists
(lines 41-47 of `query_services.py`). -/
def hybridMerge (bm fa : List String) : List String :=
  hybridMergeAux [] (bm ++ fa)

/-- Specification-side deduplication: keep the first occurrence of each
text, preserving first-seen order ("deduplicate by exact text equality,
preserving first-seen order", spec 4.4 step 4). -/
def dedupKeepFirst : List String → List String
  | [] => []
  | c :: rest => c :: (dedupKeepFirst rest).filter (fun x => x ≠ c)

/-- Equality on `Except` values is decidable (needed to state concrete
evaluations of the fallible operations). -/
instance {ε α : Type} [DecidableEq ε] [DecidableEq α] :
    DecidableEq (Except ε α)
  | .error a, .error b =>
    match decEq a b with
    | isTrue h => isTrue (by rw [h])
    | isFalse h => isFalse (by intro he; cases he; exact h rfl)
  | .error _, .ok _ => isFalse (by intro h; cases h)
  | .ok _, .error _ => isFalse (by intro h; cases h)
  | .ok a, .ok b =>
    match decEq a b with
    | isTrue h => isTrue (by rw [h])
    | isFalse h => isFalse (by intro he; cases he; exact h rfl)

/-! ## The retrieval pipeline (`QueryProcessor.process_query`, steps 1-4)

The generative-answer step 5 and translation step 6 are downstream
collaborators and out of scope (spec 1); the model returns the fused
passage list, or the "no documents" sentinel of line 18. -/

/-- Result of the retrieval part of `process_query`: the line-18
sentinel for an empty chunk set, or the fused passage list. -/
inductive QueryOutcome where
  | noDocuments : QueryOutcome
  | answer (chunks : List String) : QueryOutcome
deriving DecidableEq

/-- Vector candidates (step 3, lines 29-39): empty when no index is
loaded; otherwise embed the query and search — on `Except.error` from
either oracle the `except` clause yields `faiss_chunks = []`.  On
success, indices are bounds-filtered (line 35) and mapped to texts
(line 36).  `emb` is the result of the embedding call for the query,
`sf` the FAISS `index.search` oracle. -/
def faissChunks (docs : List String) (idxOpt : Option Nat)
    (emb : Except String (List Int))
    (sf : Nat → List Int → Nat → Except String (List Int)) (k : Nat) :
    List String :=
  match idxOpt with
  | none => []
  | some ix =>
    match emb with
    | .error _ => []
    | .ok v =>
      match sf ix v k with
      | .error _ => []
      | .ok inds =>
        ((inds.filter (fun j => decide (0 ≤ j) && decide (j < (docs.length : Int)))).map
          (fun j => docs.getD j.toNat ""))

/-- Steps 1-4 of `process_query` once the documents are loaded:
sentinel on an empty chunk list (lines 17-18), otherwise the hybrid
merge of BM25 and FAISS candidates. -/
def processQuery (docs : List String) (query : String) (k : Nat)
    (idxOpt : Option Nat) (emb : Except String (List Int))
    (sf : Nat → List Int → Nat → Except String (List Int)) : QueryOutcome :=
  if docs = [] then .noDocuments
  else .answer (hybridMerge (bm25Chunks query docs k) (faissChunks docs idxOpt emb sf k))

/-! ## `DepartmentManager` state -/

/-- A persisted FAISS index file: loadable (with its vector count), or
corrupted/truncated so that `faiss.read_index` raises. -/
inductive IndexKind where
  | valid (nvecs : Nat) : IndexKind
  | corrupt : IndexKind
deriving DecidableEq

/-- A path an entry of `self.departments` can point at: the direct file
`faiss_index/<x>.index`, or the legacy layout
`faiss_index/<x>/index.faiss`. -/
inductive IdxPath where
  | direct (x : String) : IdxPath
  | sub (x : String) : IdxPath
deriving DecidableEq

/-- The mutable state of a `DepartmentManager`: the in-memory
`self.departments` dict, the `faiss_index` directory's `.index` files,
the legacy `<dept>/index.faiss` files, and the `faiss_index/docs`
chunk-file directory (filename, file content).  Association lists model
the dict and the directories. -/
structure ManagerState where
  departments : List (String × IdxPath)
  directIdx : List (String × IndexKind)
  subdirIdx : List (String × IndexKind)
  docsDir : List (String × String)
deriving DecidableEq

/-- Lookup in an association list (Python `dict.get` / file existence). -/
def lookupA {β : Type} (l : List (String × β)) (k : String) : Option β :=
  (l.find? (fun e => e.1 = k)).map (·.2)

/-- Insert or overwrite a key (Python `dict[k] = v` / writing a file). -/
def setA {β : Type} (l : List (String × β)) (k : String) (v : β) :
    List (String × β) :=
  if (l.find? (fun e => e.1 = k)).isSome then
    l.map (fun e => if e.1 = k then (k, v) else e)
  else l ++ [(k, v)]

/-- Remove a key (Python `os.remove`). -/
def eraseA {β : Type} (l : List (String × β)) (k : String) :
    List (String × β) :=
  l.filter (fun e => e.1 ≠ k)

/-- `os.path.exists` for the two index locations. -/
def pathExists (s : ManagerState) : IdxPath → Bool
  | .direct x => (lookupA s.directIdx x).isSome
  | .sub x => (lookupA s.subdirIdx x).isSome

/-- `faiss.read_index(path)`: returns the loaded index (modelled by its
vector count) or raises on a corrupted or missing file. -/
def readIdx (s : ManagerState) : IdxPath → Except Unit Nat
  | .direct x =>
    match lookupA s.directIdx x with
    | some (.valid h) => .ok h
    | _ => .error ()
  | .sub x =>
    match lookupA s.subdirIdx x with
    | some (.valid h) => .ok h
    | _ => .error ()

/-- `DepartmentManager.get_department_index` (lines 157-175): use the
known handle when its file still exists, otherwise fall back to the
direct `<lower>.index` file, then to the legacy
`<lower>/index.faiss` layout (recording the found path in
`self.departments` before reading it), and return `None` when nothing
is found.  An `Except.error` is a Python exception escaping the method:
`faiss.read_index` is called with no surrounding `try` block.  The
returned state reflects the `self.departments` mutation, which happens
before the read. -/
def getDepartmentIndex (s : ManagerState) (dept : String) :
    Except Unit (Option Nat) × ManagerState :=
  let lower := pyLowerStr dept
  let fallback :=
    if (lookupA s.directIdx lower).isSome then
      let s1 := { s with departments := setA s.departments dept (.direct lower) }
      ((readIdx s (.direct lower)).map some, s1)
    else if (lookupA s.subdirIdx lower).isSome then
      let s1 := { s with departments := setA s.departments dept (.sub lower) }
      ((readIdx s (.sub lower)).map some, s1)
    else (.ok none, s)
  match lookupA s.departments dept with
  | some p => if pathExists s p then ((readIdx s p).map some, s) else fallback
  | none => fallback

/-! ## Chunk loading (`get_department_docs`) and glob patterns -/

/-- `l` begins with `p` (decidable Bool form). -/
def hasPre (p l : List Char) : Bool := l.take p.length = p

/-- `l` ends with `sfx`. -/
def hasSuf (sfx l : List Char) : Bool :=
  sfx.length ≤ l.length && l.drop (l.length - sfx.length) = sfx

/-- Glob `"<stem>_*.txt"` on a filename. -/
def globUnder (stem : String) (fname : String) : Bool :=
  hasPre (stem.data ++ ['_']) fname.data && hasSuf ".txt".data fname.data &&
    stem.data.length + 5 ≤ fname.data.length

/-- Glob `"<stem>*.txt"` on a filename. -/
def globStar (stem : String) (fname : String) : Bool :=
  hasPre stem.data fname.data && hasSuf ".txt".data fname.data &&
    stem.data.length + 4 ≤ fname.data.length

/-- Glob `"<stem>.txt"` on a filename. -/
def globExact (stem : String) (fname : String) : Bool :=
  fname.data = stem.data ++ ".txt".data

/-- A filename matches one of the six patterns `get_department_docs`
tries (lines 123-130): `lower_*.txt`, `lower*.txt`, `lower.txt`,
`UPPER_*.txt`, `UPPER*.txt`, `UPPER.txt`. -/
def matchesDeptFile (dept : String) (fname : String) : Bool :=
  globUnder (pyLowerStr dept) fname || globStar (pyLowerStr dept) fname ||
  globExact (pyLowerStr dept) fname || globUnder (pyUpperStr dept) fname ||
  globStar (pyUpperStr dept) fname || globExact (pyUpperStr dept) fname

/-- Python `content.strip()` on a string. -/
def stripWSStr (s : String) : String := String.mk (stripChars isWS s.data)

/-- `DepartmentManager.get_department_docs` (lines 88-155): collect the
filenames matching the six patterns in pattern order, de-duplicate
(`list(set(files))` — the model keeps first-seen order; only membership
matters to the claims below), read each file, and keep the non-empty
stripped contents.  The debug printing and the alternative-directory
fallbacks for a missing docs directory are I/O glue; a missing directory
behaves like an empty one (`return []`). -/
def getDepartmentDocs (s : ManagerState) (dept : String) : List String :=
  let names := s.docsDir.map (·.1)
  let files := dedupKeepFirst
    (names.filter (globUnder (pyLowerStr dept)) ++
     names.filter (globStar (pyLowerStr dept)) ++
     names.filter (globExact (pyLowerStr dept)) ++
     names.filter (globUnder (pyUpperStr dept)) ++
     names.filter (globStar (pyUpperStr dept)) ++
     names.filter (globExact (pyUpperStr dept)))
  files.foldr
    (fun f acc =>
      match lookupA s.docsDir f with
      | some content =>
        let c := stripWSStr content
        if c = "" then acc else c :: acc
      | none => acc)
    []

/-! ## Index lifecycle (`create_department_index`,
`rebuild_department_index`, `delete_department_pdf`) -/

/-- `DepartmentManager.create_department_index` (lines 73-81): embed the
documents (`ef` is the `get_openai_embeddings` oracle, whose errors
propagate after its internal retries are exhausted), build a FAISS index
over them, write it to `faiss_index/<lower>.index` and record the path
in `self.departments` under the department name as given.  An empty
embedding list makes `embeddings[0]` raise `IndexError`, modelled as an
error. -/
def createDepartmentIndex (ef : List String → Except String (List (List Int)))
    (s : ManagerState) (dept : String) (documents : List String) :
    Except String ManagerState :=
  match ef documents with
  | .error e => .error e
  | .ok [] => .error "IndexError: list index out of range"
  | .ok (e0 :: es) =>
    let lower := pyLowerStr dept
    .ok { s with
      directIdx := setA s.directIdx lower (.valid (e0 :: es).length),
      departments := setA s.departments dept (.direct lower) }

/-- `DepartmentManager.rebuild_department_index` (lines 260-277): read
every `docs/<lower>_*.txt` file, rebuild the index from the contents
when there are any, otherwise remove the direct
`faiss_index/<lower>.index` file if present. -/
def rebuildDepartmentIndex (ef : List String → Except String (List (List Int)))
    (s : ManagerState) (dept : String) : Except String ManagerState :=
  let lower := pyLowerStr dept
  let files := (s.docsDir.map (·.1)).filter (globUnder lower)
  let documents := files.foldr
    (fun f acc =>
      match lookupA s.docsDir f with
      | some content => content :: acc
      | none => acc)
    []
  if documents = [] then
    .ok { s with directIdx := eraseA s.directIdx lower }
  else
    createDepartmentIndex ef s dept documents

/-- `DepartmentManager.delete_department_pdf` (lines 228-234): remove
`docs/<lower>_<pdf_filename>.txt` when it exists and rebuild the index;
do nothing otherwise.  The Python function has no `return` statement,
so its value is `None` on every path — encoded as `(none : Option
Bool)`, where an explicit Python `return True/False` would be `some
true/false`. -/
def deleteDepartmentPdf (ef : List String → Except String (List (List Int)))
    (s : ManagerState) (dept : String) (pdfFilename : String) :
    Except String (ManagerState × Option Bool) :=
  let nm := pyLowerStr dept ++ "_" ++ pdfFilename ++ ".txt"
  if (lookupA s.docsDir nm).isSome then
    let s1 := { s with docsDir := eraseA s.docsDir nm }
    (rebuildDepartmentIndex ef s1 dept).map (fun s2 => (s2, none))
  else .ok (s, none)

/-- The full retrieval path on manager state (`process_query` steps 1-4
with its calls into `DepartmentManager`): load the chunks, return the
sentinel when there are none (before any index access), otherwise load
the index — whose exceptions propagate, the call on line 28 of
`query_services.py` being outside the `try` block — and run the hybrid
retrieval. -/
def processQueryFull (s : ManagerState) (dept query : String) (k : Nat)
    (emb : Except String (List Int))
    (sf : Nat → List Int → Nat → Except String (List Int)) :
    Except Unit QueryOutcome × ManagerState :=
  let docs := getDepartmentDocs s dept
  if docs = [] then (.ok .noDocuments, s)
  else
    let r := getDepartmentIndex s dept
    match r.1 with
    | .error e => (.error e, r.2)
    | .ok idxOpt => (.ok (processQuery docs query k idxOpt emb sf), r.2)

/-! ## Path model for `save_department_pdf` -/

/-- Split a raw name on `/` (path separators inside a composed path). -/
def splitSlash (s : String) : List (List Char) :=
  splitGroups (fun c => c = '/') s.data

/-- Absolute-path normalisation on components, as `os.path.abspath`
performs it: empty and `.` components vanish, `..` pops the previous
component (at the root it stays at the root). -/
def normAux (stack : List (List Char)) : List (List Char) → List (List Char)
  | [] => stack.reverse
  | c :: rest =>
    if c = [] ∨ c = ['.'] then normAux stack rest
    else if c = ['.', '.'] then normAux stack.tail rest
    else normAux (c :: stack) rest

/-- The docs directory `<base>/faiss_index/docs` as components (`base`
is `os.path.dirname(os.path.abspath(__file__))`). -/
def docsDirOf (base : List (List Char)) : List (List Char) :=
  base ++ ["faiss_index".data, "docs".data]

/-- The fixed backup directory `/tmp/faiss_index/docs` (lines 197-199). -/
def tmpDocsDir : List (List Char) :=
  ["tmp".data, "faiss_index".data, "docs".data]

/-- `os.path.abspath(os.path.join(docs_dir, name))` in components. -/
def composedPathOf (base : List (List Char)) (name : String) :
    List (List Char) :=
  normAux [] (docsDirOf base ++ splitSlash name)

/-- `p` is an initial segment of `q` (the component form of
`abspath(path).startswith(abspath(docs_dir))`, line 188). -/
def leadsPath (p q : List (List Char)) : Prop := ∃ r, q = p ++ r

/-- Render a component list as the path string `os.path.abspath`
returns (components joined by `/`; the common leading separator is
omitted from both sides of every comparison, which leaves string-prefix
tests unchanged). -/
def joinPath : List (List Char) → List Char
  | [] => []
  | [c] => c
  | c :: rest => c ++ '/' :: joinPath rest

/-- The write-and-guard part of `save_department_pdf` (lines 183-202)
for an arbitrary already-composed filename.  The guard is line 188's
`os.path.abspath(path).startswith(os.path.abspath(docs_dir))` — a
*string*-prefix test on the resolved paths, modelled as a
character-list prefix of the joined components: when it fails, raise
`ValueError`; otherwise write the text there and to the `/tmp` backup
directory.  The result is the list of paths written, in write order.
(The name is treated as a relative path, as every name the code
composes is: `os.path.join` would let a name starting with a separator
replace the directory part instead.) -/
def savePdfRaw (base : List (List Char)) (name : String) :
    Except Unit (List (List (List Char))) :=
  if (joinPath (composedPathOf base name)).take
      (joinPath (docsDirOf base)).length = joinPath (docsDirOf base) then
    .ok [composedPathOf base name, normAux [] (tmpDocsDir ++ splitSlash name)]
  else .error ()

/-- The filename `f"{safe_dept_name}_{safe_filename}.txt"` composed on
line 185. -/
def composedName (dept pdfFilename : String) : String :=
  sanitizeName dept ++ "_" ++ sanitizeName pdfFilename ++ ".txt"

/-- `DepartmentManager.save_department_pdf` (lines 178-202): sanitize
both names, compose the filename, and write under the path-traversal
guard.  The written text itself does not influence the written paths
and is omitted. -/
def savePdf (base : List (List Char)) (dept pdfFilename : String) :
    Except Unit (List (List (List Char))) :=
  savePdfRaw base (composedName dept pdfFilename)

/-- Two adjacent dots nowhere in the list (no `".."` substring). -/
def noAdjacentDots (l : List Char) : Prop :=
  List.Chain' (fun a b => ¬(a = '.' ∧ b = '.')) l

/-! ## Lemmas about the fusion step -/

theorem hybridMergeAux_eq (l : List String) :
    ∀ seen, hybridMergeAux seen l =
      (dedupKeepFirst l).filter (fun x => x ∉ seen) := by
  induction l with
  | nil => intro seen; rfl
  | cons c rest ih =>
    intro seen
    by_cases h : c ∈ seen
    · rw [hybridMergeAux, if_pos h, ih, dedupKeepFirst, List.filter_cons_of_neg
        (by simpa using h), List.filter_filter]
      apply List.filter_congr
      intro x _
      by_cases hxc : x = c
      · subst hxc; simp [h]
      · simp [hxc]
    · rw [hybridMergeAux, if_neg h, ih, dedupKeepFirst, List.filter_cons_of_pos
        (by simpa using h), List.filter_filter]
      congr 1
      apply List.filter_congr
      intro x _
      by_cases hxc : x = c
      · subst hxc; simp
      · simp [hxc]

theorem hybridMerge_eq_dedup (bm fa : List String) :
    hybridMerge bm fa = dedupKeepFirst (bm ++ fa) := by
  rw [hybridMerge, hybridMergeAux_eq]
  simp

theorem dedupKeepFirst_append (l1 l2 : List String) :
    dedupKeepFirst (l1 ++ l2) =
      dedupKeepFirst l1 ++ (dedupKeepFirst l2).filter (fun x => x ∉ l1) := by
  induction l1 with
  | nil => simp [dedupKeepFirst]
  | cons c l1 ih =>
    simp only [List.cons_append, dedupKeepFirst, List.append_eq]
    rw [ih]
    simp only [List.filter_append, List.filter_filter]
    congr 2
    apply List.filter_congr
    intro x _
    by_cases hxc : x = c
    · subst hxc; simp
    · simp [hxc]

theorem mem_dedupKeepFirst (x : String) (l : List String) :
    x ∈ dedupKeepFirst l ↔ x ∈ l := by
  induction l with
  | nil => rfl
  | cons c rest ih =>
    simp only [dedupKeepFirst, List.mem_cons, List.mem_filter, ih,
      decide_eq_true_eq]
    constructor
    · rintro (h | ⟨h, _⟩)
      · exact Or.inl h
      · exact Or.inr h
    · rintro (h | h)
      · exact Or.inl h
      · by_cases hxc : x = c
        · exact Or.inl hxc
        · exact Or.inr ⟨h, hxc⟩

theorem nodup_dedupKeepFirst (l : List String) : (dedupKeepFirst l).Nodup := by
  induction l with
  | nil => exact List.nodup_nil
  | cons c rest ih =>
    refine List.Nodup.cons ?_ (ih.filter _)
    intro hc
    have := (List.mem_filter.1 hc).2
    simp at this

theorem length_dedupKeepFirst_le (l : List String) :
    (dedupKeepFirst l).length ≤ l.length := by
  induction l with
  | nil => simp [dedupKeepFirst]
  | cons c rest ih =>
    simp only [dedupKeepFirst, List.length_cons]
    exact Nat.succ_le_succ (le_trans (List.length_filter_le _ _) ih)

/-- C2.  The fused result of `retrieve` is the concatenation of the
lexical candidates' texts followed by the vector candidates' texts,
de-duplicated by exact text equality keeping the first occurrence; in
the fused list every lexical candidate precedes every vector-only
candidate. -/
theorem claim_C2 (bm fa : List String) :
    hybridMerge bm fa = dedupKeepFirst (bm ++ fa) ∧
    (∀ docs query k idxOpt emb sf, docs ≠ [] →
      processQuery docs query k idxOpt emb sf =
        .answer (dedupKeepFirst (bm25Chunks query docs k ++
          faissChunks docs idxOpt emb sf k))) ∧
    (∀ b ∈ bm, ∀ v ∈ fa, v ∉ bm →
      (hybridMerge bm fa).indexOf b < (hybridMerge bm fa).indexOf v) := by
  refine ⟨hybridMerge_eq_dedup bm fa, ?_, ?_⟩
  · intro docs query k idxOpt emb sf hd
    rw [processQuery, if_neg hd, hybridMerge_eq_dedup]
  · intro b hb v hv hvb
    rw [hybridMerge_eq_dedup, dedupKeepFirst_append]
    have hbA : b ∈ dedupKeepFirst bm := (mem_dedupKeepFirst b bm).2 hb
    have hvA : v ∉ dedupKeepFirst bm := fun h => hvb ((mem_dedupKeepFirst v bm).1 h)
    rw [List.indexOf_append_of_mem hbA, List.indexOf_append_of_not_mem hvA]
    calc List.indexOf b (dedupKeepFirst bm) < (dedupKeepFirst bm).length :=
          List.indexOf_lt_length.2 hbA
      _ ≤ _ := Nat.le_add_right _ _

/-- C2 witness: the theorem applied at a concrete input, with the
fusion evaluated. -/
theorem claim_C2_witness :
    hybridMerge ["a"] ["b", "a"] = dedupKeepFirst (["a"] ++ ["b", "a"]) ∧
    hybridMerge ["a"] ["b", "a"] = ["a", "b"] ∧
    (hybridMerge ["a"] ["b", "a"]).indexOf "a" <
      (hybridMerge ["a"] ["b", "a"]).indexOf "b" := by
  refine ⟨(claim_C2 ["a"] ["b", "a"]).1, by decide, ?_⟩
  exact (claim_C2 ["a"] ["b", "a"]).2.2 "a" (by decide) "b" (by decide) (by decide)

/-- C8.  Any passage list returned by `retrieve` has no duplicate
texts and, provided the vector search honours its `k` bound, contains
at most `2 * k` entries. -/
theorem claim_C8 (docs : List String) (query : String) (k : Nat)
    (idxOpt : Option Nat) (emb : Except String (List Int))
    (sf : Nat → List Int → Nat → Except String (List Int)) (out : List String)
    (hsf : ∀ ix v res, sf ix v k = .ok res → res.length ≤ k)
    (hout : processQuery docs query k idxOpt emb sf = .answer out) :
    out.Nodup ∧ out.length ≤ 2 * k := by
  by_cases hd : docs = []
  · rw [processQuery, if_pos hd] at hout
    cases hout
  · rw [processQuery, if_neg hd] at hout
    have hout2 : hybridMerge (bm25Chunks query docs k)
        (faissChunks docs idxOpt emb sf k) = out := by
      cases hout; rfl
    have hbm : (bm25Chunks query docs k).length ≤ k := by
      rw [bm25Chunks, List.length_map, bm25TopIdx]
      exact le_trans (List.length_take_le _ _) (le_refl k)
    have hfa : (faissChunks docs idxOpt emb sf k).length ≤ k := by
      rcases idxOpt with _ | ix
      · simp [faissChunks]
      · rcases emb with e | v
        · simp [faissChunks]
        · rcases hm : sf ix v k with e | inds
          · simp [faissChunks, hm]
          · simp only [faissChunks, hm, List.length_map]
            exact le_trans (List.length_filter_le _ _) (hsf ix v inds hm)
    constructor
    · rw [← hout2, hybridMerge_eq_dedup]
      exact nodup_dedupKeepFirst _
    · rw [← hout2, hybridMerge_eq_dedup]
      calc (dedupKeepFirst (bm25Chunks query docs k ++
              faissChunks docs idxOpt emb sf k)).length
          ≤ (bm25Chunks query docs k ++ faissChunks docs idxOpt emb sf k).length :=
            length_dedupKeepFirst_le _
        _ = (bm25Chunks query docs k).length +
              (faissChunks docs idxOpt emb sf k).length := List.length_append _ _
        _ ≤ k + k := Nat.add_le_add hbm hfa
        _ = 2 * k := (Nat.two_mul k).symm

/-- C8 witness: the theorem applied at a concrete retrieval. -/
theorem claim_C8_witness :
    (["a"] : List String).Nodup ∧ (["a"] : List String).length ≤ 2 * 1 := by
  refine claim_C8 ["a"] "a" 1 none (.ok []) (fun _ _ _ => .ok []) ["a"] ?_ (by decide)
  intro ix v res h
  cases h
  exact Nat.zero_le 1

/-! ## Sentinel and failure-path claims -/

theorem processQueryFull_sentinel (s : ManagerState) (dept query : String)
    (k : Nat) (emb : Except String (List Int))
    (sf : Nat → List Int → Nat → Except String (List Int))
    (h : getDepartmentDocs s dept = []) :
    processQueryFull s dept query k emb sf = (.ok .noDocuments, s) := by
  rw [processQueryFull]
  simp only [h, if_pos]

/-- C1.  For a department whose chunk set is empty, the retrieval path
returns the "no documents" sentinel with the state untouched and raises
no exception — the sentinel return on line 18 of `query_services.py`
happens before the index (the only exception source on this path) is
ever loaded. -/
theorem claim_C1 (s : ManagerState) (dept query : String) (k : Nat)
    (emb : Except String (List Int))
    (sf : Nat → List Int → Nat → Except String (List Int))
    (h : getDepartmentDocs s dept = []) :
    processQueryFull s dept query k emb sf = (.ok .noDocuments, s) :=
  processQueryFull_sentinel s dept query k emb sf h

/-- C1 witness: a concrete empty department, with the hypothesis
evaluated. -/
theorem claim_C1_witness :
    getDepartmentDocs ⟨[], [("hr", IndexKind.corrupt)], [], []⟩ "hr" = [] ∧
    processQueryFull ⟨[], [("hr", IndexKind.corrupt)], [], []⟩ "hr" "any query" 3
        (.error "embedding down") (fun _ _ _ => .error "search down") =
      (.ok .noDocuments, ⟨[], [("hr", IndexKind.corrupt)], [], []⟩) :=
  ⟨by decide, claim_C1 _ _ _ _ _ _ (by decide)⟩

/-- C3.  When the vector-candidate step fails — the embedding call
errors, or the FAISS search errors — the `except` clause of lines 37-39
yields empty vector candidates and the query still returns the
lexical-only result; no error escapes. -/
theorem claim_C3 (docs : List String) (query : String) (k ix : Nat)
    (emb : Except String (List Int))
    (sf : Nat → List Int → Nat → Except String (List Int))
    (hd : docs ≠ [])
    (herr : (∃ e, emb = .error e) ∨
      ∃ v e, emb = .ok v ∧ sf ix v k = .error e) :
    processQuery docs query k (some ix) emb sf =
      .answer (hybridMerge (bm25Chunks query docs k) []) := by
  rw [processQuery, if_neg hd]
  have hfa : faissChunks docs (some ix) emb sf k = [] := by
    rcases herr with ⟨e, rfl⟩ | ⟨v, e, rfl, hsf⟩
    · rfl
    · simp [faissChunks, hsf]
  rw [hfa]

/-- C3 witness: a failing embedding call on a concrete corpus, with the
lexical-only result evaluated. -/
theorem claim_C3_witness :
    processQuery ["a"] "a" 3 (some 0) (.error "rate limited")
        (fun _ _ _ => .ok []) =
      .answer (hybridMerge (bm25Chunks "a" ["a"] 3) []) ∧
    processQuery ["a"] "a" 3 (some 0) (.error "rate limited")
        (fun _ _ _ => .ok []) = .answer ["a"] :=
  ⟨claim_C3 ["a"] "a" 3 0 _ _ (by decide) (Or.inl ⟨"rate limited", rfl⟩),
   by decide⟩

/-- C4.  On a department whose persisted index file is corrupted,
`get_department_index` does not report "not found": `faiss.read_index`
raises and the exception escapes the method (there is no `try` around
it), and it also escapes `process_query`, whose line-28 call is outside
the `try` block.  A subsequent successful rebuild replaces the file and
makes the department queryable again. -/
theorem claim_C4 :
    (getDepartmentIndex ⟨[], [("hr", IndexKind.corrupt)], [],
        [("hr_a.txt", "text")]⟩ "Hr").1 = .error () ∧
    (processQueryFull ⟨[], [("hr", IndexKind.corrupt)], [],
        [("hr_a.txt", "text")]⟩ "Hr" "q" 3 (.ok [])
        (fun _ _ _ => .ok [])).1 = .error () ∧
    rebuildDepartmentIndex (fun _ => .ok [[0]])
        ⟨[], [("hr", IndexKind.corrupt)], [], [("hr_a.txt", "text")]⟩ "Hr" =
      .ok ⟨[("Hr", .direct "hr")], [("hr", IndexKind.valid 1)], [],
        [("hr_a.txt", "text")]⟩ ∧
    (getDepartmentIndex ⟨[("Hr", .direct "hr")], [("hr", IndexKind.valid 1)],
        [], [("hr_a.txt", "text")]⟩ "Hr").1 = .ok (some 1) := by
  refine ⟨by decide, by decide, by decide, by decide⟩

/-! ## Rebuild-with-no-chunks and delete claims -/

theorem lookupA_eraseA {β : Type} (l : List (String × β)) (k : String) :
    lookupA (eraseA l k) k = none := by
  rw [lookupA, eraseA]
  have : List.find? (fun e => decide (e.1 = k))
      (l.filter (fun e => decide (e.1 ≠ k))) = none := by
    apply List.find?_eq_none.2
    intro x hx
    have := (List.mem_filter.1 hx).2
    simpa using this
  rw [this]
  rfl

theorem matchesDeptFile_false (dept fname : String)
    (h : matchesDeptFile dept fname = false) :
    globUnder (pyLowerStr dept) fname = false ∧
    globStar (pyLowerStr dept) fname = false ∧
    globExact (pyLowerStr dept) fname = false ∧
    globUnder (pyUpperStr dept) fname = false ∧
    globStar (pyUpperStr dept) fname = false ∧
    globExact (pyUpperStr dept) fname = false := by
  rw [matchesDeptFile] at h
  simp only [Bool.or_eq_false_iff] at h
  tauto

theorem getDepartmentDocs_empty (s : ManagerState) (dept : String)
    (hno : ∀ e ∈ s.docsDir, matchesDeptFile dept e.1 = false) :
    getDepartmentDocs s dept = [] := by
  rw [getDepartmentDocs]
  have hfil : ∀ g : String → Bool,
      (∀ e ∈ s.docsDir, g e.1 = false) →
      (s.docsDir.map (·.1)).filter g = [] := by
    intro g hg
    apply List.filter_eq_nil_iff.2
    intro a ha
    rcases List.mem_map.1 ha with ⟨e, he, rfl⟩
    simp [hg e he]
  rw [hfil _ (fun e he => (matchesDeptFile_false dept e.1 (hno e he)).1),
      hfil _ (fun e he => (matchesDeptFile_false dept e.1 (hno e he)).2.1),
      hfil _ (fun e he => (matchesDeptFile_false dept e.1 (hno e he)).2.2.1),
      hfil _ (fun e he => (matchesDeptFile_false dept e.1 (hno e he)).2.2.2.1),
      hfil _ (fun e he => (matchesDeptFile_false dept e.1 (hno e he)).2.2.2.2.1),
      hfil _ (fun e he => (matchesDeptFile_false dept e.1 (hno e he)).2.2.2.2.2)]
  rfl

/-- C5 counterexample, three reachable scenarios.  First, a department
with an empty chunk set whose on-disk index lives in the legacy
subdirectory layout (`faiss_index/hr/index.faiss`):
`rebuild_department_index` only ever removes the direct
`faiss_index/hr.index` file, so the rebuild returns with the legacy
index still on disk and `get_department_index` still loads it.  Second,
a single chunk file `hr_x.txt` with empty content (`admin.py` writes
whatever text extraction produced, including `""`): `readAll`
(`get_department_docs`) is empty — the department's chunk set as the
retrieval path sees it — yet `rebuild` reads `documents = [""]`, which
is non-empty, and persists a fresh index instead of deleting.  Third, a
department `hr` with no chunks at all while another department's file
`hrabc_y.txt` exists: `rebuild` does delete the canonical index, but the
later query matches `hrabc_y.txt` under the `hr*.txt` loader pattern and
returns that text, not the "no documents" sentinel. -/
theorem claim_C5_counterexample :
    (rebuildDepartmentIndex (fun _ => .error "unused")
        ⟨[], [], [("hr", IndexKind.valid 1)], []⟩ "hr" =
      .ok ⟨[], [], [("hr", IndexKind.valid 1)], []⟩ ∧
    pathExists ⟨[], [], [("hr", IndexKind.valid 1)], []⟩ (.sub "hr") = true ∧
    (getDepartmentIndex ⟨[], [], [("hr", IndexKind.valid 1)], []⟩ "hr").1 =
      .ok (some 1)) ∧
    (getDepartmentDocs ⟨[], [("hr", IndexKind.valid 5)], [],
        [("hr_x.txt", "")]⟩ "hr" = [] ∧
    rebuildDepartmentIndex (fun _ => .ok [[0]])
        ⟨[], [("hr", IndexKind.valid 5)], [], [("hr_x.txt", "")]⟩ "hr" =
      .ok ⟨[("hr", .direct "hr")], [("hr", IndexKind.valid 1)], [],
        [("hr_x.txt", "")]⟩ ∧
    pathExists ⟨[("hr", .direct "hr")], [("hr", IndexKind.valid 1)], [],
        [("hr_x.txt", "")]⟩ (.direct "hr") = true) ∧
    (rebuildDepartmentIndex (fun _ => .ok [[0]])
        ⟨[], [("hr", IndexKind.valid 3)], [], [("hrabc_y.txt", "zz")]⟩ "hr" =
      .ok ⟨[], [], [], [("hrabc_y.txt", "zz")]⟩ ∧
    (processQueryFull ⟨[], [], [], [("hrabc_y.txt", "zz")]⟩ "hr" "q" 1
        (.ok []) (fun _ _ _ => .ok [])).1 = .ok (.answer ["zz"])) := by
  refine ⟨⟨by decide, by decide, by decide⟩,
    ⟨by decide, by decide, by decide⟩, by decide, by decide⟩

/-- C5 as amended.  When no file in the docs directory matches any of
the department's six loader patterns, a rebuild persists no index,
deletes the department's canonical `faiss_index/<lower>.index` file when
present (legacy `faiss_index/<lower>/index.faiss` files are not
removed), leaves everything else unchanged, and a later query routes
through the "no documents" sentinel.  That condition is deliberately
stronger than "the chunk set is empty": as the counterexample records,
an empty-content `hr_x.txt` gives an empty `readAll` yet makes `rebuild`
persist an index instead of deleting, and another department's
`hrabc_y.txt` leaves `rebuild`'s glob empty yet makes the later query
return that department's text instead of the sentinel. -/
theorem claim_C5 (s : ManagerState) (dept query : String) (k : Nat)
    (ef : List String → Except String (List (List Int)))
    (emb : Except String (List Int))
    (sf : Nat → List Int → Nat → Except String (List Int))
    (hno : ∀ e ∈ s.docsDir, matchesDeptFile dept e.1 = false) :
    rebuildDepartmentIndex ef s dept =
      .ok { s with directIdx := eraseA s.directIdx (pyLowerStr dept) } ∧
    lookupA (eraseA s.directIdx (pyLowerStr dept)) (pyLowerStr dept) = none ∧
    processQueryFull { s with directIdx := eraseA s.directIdx (pyLowerStr dept) }
        dept query k emb sf =
      (.ok .noDocuments,
        { s with directIdx := eraseA s.directIdx (pyLowerStr dept) }) := by
  have hfiles : (s.docsDir.map (·.1)).filter (globUnder (pyLowerStr dept)) = [] := by
    apply List.filter_eq_nil_iff.2
    intro a ha
    rcases List.mem_map.1 ha with ⟨e, he, rfl⟩
    simp [(matchesDeptFile_false dept e.1 (hno e he)).1]
  refine ⟨?_, lookupA_eraseA _ _, ?_⟩
  · rw [rebuildDepartmentIndex]
    simp only [hfiles, List.foldr_nil, if_pos]
  · apply processQueryFull_sentinel
    apply getDepartmentDocs_empty
    intro e he
    exact hno e he

/-- C5 witness: the amended theorem applied to a concrete department
with no chunk files (another department's file present) and a stale
direct index. -/
theorem claim_C5_witness :
    rebuildDepartmentIndex (fun _ => .error "unused")
        ⟨[], [("hr", IndexKind.valid 2)], [], [("it_x.txt", "y")]⟩ "hr" =
      .ok ⟨[], [], [], [("it_x.txt", "y")]⟩ ∧
    processQueryFull ⟨[], [], [], [("it_x.txt", "y")]⟩ "hr" "q" 3 (.ok [])
        (fun _ _ _ => .ok []) =
      (.ok .noDocuments, ⟨[], [], [], [("it_x.txt", "y")]⟩) := by
  have h := claim_C5 ⟨[], [("hr", IndexKind.valid 2)], [], [("it_x.txt", "y")]⟩
    "hr" "q" 3 (fun _ => .error "unused") (.ok []) (fun _ _ _ => .ok [])
    (by decide)
  exact ⟨h.1, h.2.2⟩

/-- C9 counterexample: deleting a document that is not stored returns
Python `None` (the method has no `return` statement), not the boolean
`False` the claim describes. -/
theorem claim_C9_counterexample :
    deleteDepartmentPdf (fun _ => .error "unused") ⟨[], [], [], []⟩ "hr" "doc" =
      .ok (⟨[], [], [], []⟩, none) ∧
    (none : Option Bool) ≠ some false := by
  refine ⟨by decide, by decide⟩

/-- C9 as amended.  `delete_department_pdf` always returns `None`
(no boolean); a not-found delete raises no error and leaves the stored
state — in particular the chunk set — unchanged. -/
theorem claim_C9 (s : ManagerState) (dept pdfFilename : String)
    (ef : List String → Except String (List (List Int)))
    (hnf : lookupA s.docsDir
      (pyLowerStr dept ++ "_" ++ pdfFilename ++ ".txt") = none) :
    deleteDepartmentPdf ef s dept pdfFilename = .ok (s, none) := by
  rw [deleteDepartmentPdf]
  simp only [hnf, Option.isSome_none, Bool.false_eq_true, if_false]

/-- C9 witness: a concrete not-found delete. -/
theorem claim_C9_witness :
    deleteDepartmentPdf (fun _ => .error "unused")
        ⟨[], [("hr", IndexKind.valid 1)], [], [("hr_other.txt", "t")]⟩
        "hr" "missing" =
      .ok (⟨[], [("hr", IndexKind.valid 1)], [], [("hr_other.txt", "t")]⟩, none) :=
  claim_C9 _ "hr" "missing" (fun _ => .error "unused") (by decide)

/-! ## Lemmas about the sanitizer -/

theorem charToNat_ofNat (n : Nat) (h : n.isValidChar) :
    (Char.ofNat n).toNat = n := by
  unfold Char.ofNat
  rw [dif_pos h]
  rfl

theorem char_toNat_inj {a b : Char} (h : a.toNat = b.toNat) : a = b :=
  Char.ext (UInt32.ext h)

theorem pyLower_toNat_of_upper {c : Char} (h : 65 ≤ c.toNat ∧ c.toNat ≤ 90) :
    (pyLower c).toNat = c.toNat + 32 := by
  rw [pyLower, if_pos h]
  exact charToNat_ofNat _ (Or.inl (by omega))

theorem pyLower_idem (c : Char) : pyLower (pyLower c) = pyLower c := by
  by_cases h : 65 ≤ c.toNat ∧ c.toNat ≤ 90
  · have ht := pyLower_toNat_of_upper h
    conv_lhs => rw [pyLower]
    rw [if_neg (by omega)]
  · have h2 : pyLower c = c := by rw [pyLower, if_neg h]
    rw [h2, h2]

theorem pyLower_eq_iff {d : Char} (hd1 : ¬(65 ≤ d.toNat ∧ d.toNat ≤ 90))
    (hd2 : ¬(97 ≤ d.toNat ∧ d.toNat ≤ 122)) (c : Char) :
    pyLower c = d ↔ c = d := by
  by_cases h : 65 ≤ c.toNat ∧ c.toNat ≤ 90
  · have ht := pyLower_toNat_of_upper h
    constructor
    · intro he
      exact absurd (he ▸ ht) (by omega)
    · intro he
      exact absurd (he ▸ h) hd1
  · rw [pyLower, if_neg h]

theorem isDangerChar_pyLower (c : Char) :
    isDangerChar (pyLower c) = isDangerChar c := by
  simp only [isDangerChar]
  rw [decide_eq_decide.2 (pyLower_eq_iff (by decide) (by decide) c),
    decide_eq_decide.2 (pyLower_eq_iff (by decide) (by decide) c),
    decide_eq_decide.2 (pyLower_eq_iff (by decide) (by decide) c),
    decide_eq_decide.2 (pyLower_eq_iff (by decide) (by decide) c),
    decide_eq_decide.2 (pyLower_eq_iff (by decide) (by decide) c),
    decide_eq_decide.2 (pyLower_eq_iff (by decide) (by decide) c),
    decide_eq_decide.2 (pyLower_eq_iff (by decide) (by decide) c),
    decide_eq_decide.2 (pyLower_eq_iff (by decide) (by decide) c),
    decide_eq_decide.2 (pyLower_eq_iff (by decide) (by decide) c)]

theorem isDotSpace_pyLower (c : Char) :
    isDotSpace (pyLower c) = isDotSpace c := by
  simp only [isDotSpace]
  rw [decide_eq_decide.2 (pyLower_eq_iff (by decide) (by decide) c),
    decide_eq_decide.2 (pyLower_eq_iff (by decide) (by decide) c)]

theorem pyLower_eq_dot (c : Char) : pyLower c = '.' ↔ c = '.' :=
  pyLower_eq_iff (by decide) (by decide) c

theorem replaceDanger_eq_dot (c : Char) : replaceDanger c = '.' ↔ c = '.' := by
  rw [replaceDanger]
  by_cases h : isDangerChar c
  · rw [if_pos h]
    constructor
    · intro he
      exact absurd he (by decide)
    · intro he
      subst he
      exact absurd h (by decide)
  · rw [if_neg h]

theorem isDanger_replaceDanger (c : Char) :
    isDangerChar (replaceDanger c) = false := by
  rw [replaceDanger]
  by_cases h : isDangerChar c
  · rw [if_pos h]
    decide
  · rw [if_neg h]
    simpa using h

theorem replaceDanger_eq_self {c : Char} (h : isDangerChar c = false) :
    replaceDanger c = c := by
  rw [replaceDanger, if_neg (by simp [h])]

theorem pyLower_eq_self_of_noDanger_aux {c : Char} (h : isDotSpace c = false) :
    isDotSpace (pyLower c) = false := by rw [isDotSpace_pyLower, h]

theorem rdrAux_head_dot (l : List Char) :
    ∀ prev, (rdrAux prev l).head? = some '.' → l.head? = some '.' := by
  induction l with
  | nil => intro prev h; simp [rdrAux] at h
  | cons c rest ih =>
    intro prev h
    rw [rdrAux] at h
    by_cases hc : c = '.' ∧ (prev = some '.' ∨ rest.head? = some '.')
    · rw [if_pos hc] at h
      simp [hc.1]
    · rw [if_neg hc] at h
      simp only [List.head?_cons, Option.some.injEq] at h
      simp [h]

theorem chain'_rdrAux (l : List Char) :
    ∀ prev, List.Chain' (fun a b => ¬(a = '.' ∧ b = '.')) (rdrAux prev l) := by
  induction l with
  | nil => intro prev; simp [rdrAux]
  | cons c rest ih =>
    intro prev
    rw [rdrAux]
    by_cases hc : c = '.' ∧ (prev = some '.' ∨ rest.head? = some '.')
    · rw [if_pos hc]
      exact ih (some c)
    · rw [if_neg hc]
      rw [List.chain'_cons']
      refine ⟨?_, ih (some c)⟩
      intro y hy hcy
      apply hc
      refine ⟨hcy.1, Or.inr ?_⟩
      apply rdrAux_head_dot rest (some c)
      rw [Option.mem_def] at hy
      rw [hy, hcy.2]

theorem rdrAux_id (l : List Char)
    (hch : List.Chain' (fun a b => ¬(a = '.' ∧ b = '.')) l) :
    ∀ prev, ¬(prev = some '.' ∧ l.head? = some '.') → rdrAux prev l = l := by
  induction l with
  | nil => intro prev _; rfl
  | cons c rest ih =>
    intro prev hpr
    have hrest : ¬(c = '.' ∧ rest.head? = some '.') := by
      rintro ⟨hc1, hc2⟩
      exact (List.chain'_cons'.1 hch).1 '.'
        (by rw [Option.mem_def, hc2]) ⟨hc1, rfl⟩
    rw [rdrAux, if_neg ?_, ih hch.tail (some c) ?_]
    · rintro ⟨hc1, hc2⟩
      exact hrest ⟨Option.some.inj hc1, hc2⟩
    · rintro ⟨hc1, hor⟩
      rcases hor with hp | hr
      · exact hpr ⟨hp, by simp [hc1]⟩
      · exact hrest ⟨hc1, hr⟩

theorem removeDotRuns_chain (l : List Char) :
    noAdjacentDots (removeDotRuns l) := chain'_rdrAux l none

theorem removeDotRuns_id (l : List Char) (h : noAdjacentDots l) :
    removeDotRuns l = l := rdrAux_id l h none (by simp)

theorem chain'_dropWhile {α : Type} {R : α → α → Prop} (p : α → Bool)
    (l : List α) (h : List.Chain' R l) : List.Chain' R (l.dropWhile p) := by
  induction l with
  | nil => simp
  | cons c rest ih =>
    rw [List.dropWhile_cons]
    by_cases hp : p c
    · rw [if_pos hp]
      exact ih h.tail
    · rw [if_neg hp]
      exact h

theorem chain'_stripChars (p : Char → Bool) (l : List Char)
    (h : noAdjacentDots l) : noAdjacentDots (stripChars p l) := by
  have hsym : ∀ a b : Char, ¬(a = '.' ∧ b = '.') → ¬(b = '.' ∧ a = '.') :=
    fun a b hab hc => hab ⟨hc.2, hc.1⟩
  have h1 : noAdjacentDots (l.dropWhile p) := chain'_dropWhile p l h
  have h2 : noAdjacentDots ((l.dropWhile p).reverse) :=
    List.chain'_reverse.mpr (h1.imp hsym)
  have h3 : noAdjacentDots (((l.dropWhile p).reverse).dropWhile p) :=
    chain'_dropWhile p _ h2
  exact List.chain'_reverse.mpr (h3.imp hsym)

theorem mem_stripChars {p : Char → Bool} {l : List Char} {c : Char}
    (h : c ∈ stripChars p l) : c ∈ l := by
  rw [stripChars, List.mem_reverse] at h
  have h2 := (List.dropWhile_sublist p).subset h
  rw [List.mem_reverse] at h2
  exact (List.dropWhile_sublist p).subset h2

theorem headOK_dropWhile (p : Char → Bool) (l : List Char) :
    ∀ c, (l.dropWhile p).head? = some c → p c = false := by
  intro c hc
  have := List.head?_dropWhile_not p l
  rw [hc] at this
  exact this

theorem stripChars_headOK (p : Char → Bool) (l : List Char) :
    ∀ c, (stripChars p l).head? = some c → p c = false := by
  intro c hc
  rw [stripChars, List.head?_reverse] at hc
  rcases List.dropWhile_suffix (l := (l.dropWhile p).reverse) p with ⟨t, ht⟩
  have hm : ((l.dropWhile p).reverse).getLast? = some c := by
    rw [← ht, List.getLast?_append, hc]
    rfl
  rw [List.getLast?_reverse] at hm
  exact headOK_dropWhile p l c hm

theorem stripChars_lastOK (p : Char → Bool) (l : List Char) :
    ∀ c, (stripChars p l).getLast? = some c → p c = false := by
  intro c hc
  rw [stripChars, List.getLast?_reverse] at hc
  exact headOK_dropWhile p _ c hc

theorem dropWhile_id_of_headOK {p : Char → Bool} {l : List Char}
    (h : ∀ c, l.head? = some c → p c = false) : l.dropWhile p = l := by
  cases l with
  | nil => rfl
  | cons c rest =>
    rw [List.dropWhile_cons, if_neg (by simp [h c rfl])]

theorem stripChars_id {p : Char → Bool} {l : List Char}
    (hh : ∀ c, l.head? = some c → p c = false)
    (hl : ∀ c, l.getLast? = some c → p c = false) : stripChars p l = l := by
  have h2 : ∀ c, (l.reverse).head? = some c → p c = false := by
    intro c hc
    rw [List.head?_reverse] at hc
    exact hl c hc
  rw [stripChars, dropWhile_id_of_headOK hh, dropWhile_id_of_headOK h2,
    List.reverse_reverse]

theorem map_pointwise_id {α : Type} {f : α → α} {l : List α}
    (h : ∀ c ∈ l, f c = c) : l.map f = l := by
  calc l.map f = l.map id := List.map_congr_left h
    _ = l := List.map_id l

theorem noAdjacentDots_default : noAdjacentDots "default".data := by
  rw [show "default".data = ['d', 'e', 'f', 'a', 'u', 'l', 't'] from rfl,
    noAdjacentDots]
  simp only [List.chain'_cons, List.chain'_singleton, and_true]
  refine ⟨?_, ?_, ?_, ?_, ?_, ?_⟩ <;> rintro ⟨h1, h2⟩ <;> cases h1

theorem sanitizeList_props (l : List Char) :
    noAdjacentDots (sanitizeList l) ∧
    (∀ c ∈ sanitizeList l, isDangerChar c = false) ∧
    (∀ c, (sanitizeList l).head? = some c → isDotSpace c = false) ∧
    (∀ c, (sanitizeList l).getLast? = some c → isDotSpace c = false) ∧
    sanitizeList l ≠ [] ∧
    (sanitizeList l).map pyLower = sanitizeList l := by
  have hsymless : ∀ a b : Char,
      ¬(a = '.' ∧ b = '.') → ¬(replaceDanger a = '.' ∧ replaceDanger b = '.') :=
    fun a b hab hc =>
      hab ⟨(replaceDanger_eq_dot a).1 hc.1, (replaceDanger_eq_dot b).1 hc.2⟩
  have hd2chain : noAdjacentDots ((removeDotRuns l).map replaceDanger) := by
    rw [noAdjacentDots, List.chain'_map]
    exact (removeDotRuns_chain l).imp hsymless
  have hd3chain : noAdjacentDots
      (stripChars isDotSpace ((removeDotRuns l).map replaceDanger)) :=
    chain'_stripChars _ _ hd2chain
  have hd4chain : noAdjacentDots (sanitizeStep4
      (stripChars isDotSpace ((removeDotRuns l).map replaceDanger))) := by
    rw [sanitizeStep4]
    by_cases he : stripChars isDotSpace ((removeDotRuns l).map replaceDanger) = []
    · rw [if_pos he]
      exact noAdjacentDots_default
    · rw [if_neg he]
      exact hd3chain
  have houtchain : noAdjacentDots (sanitizeList l) := by
    rw [sanitizeList, noAdjacentDots, List.chain'_map]
    exact hd4chain.imp (fun a b hab hc =>
      hab ⟨(pyLower_eq_dot a).1 hc.1, (pyLower_eq_dot b).1 hc.2⟩)
  have hd3danger : ∀ c ∈ stripChars isDotSpace
      ((removeDotRuns l).map replaceDanger), isDangerChar c = false := by
    intro c hc
    rcases List.mem_map.1 (mem_stripChars hc) with ⟨x, _, rfl⟩
    exact isDanger_replaceDanger x
  have hd4danger : ∀ c ∈ sanitizeStep4 (stripChars isDotSpace
      ((removeDotRuns l).map replaceDanger)), isDangerChar c = false := by
    rw [sanitizeStep4]
    by_cases he : stripChars isDotSpace ((removeDotRuns l).map replaceDanger) = []
    · rw [if_pos he]
      decide
    · rw [if_neg he]
      exact hd3danger
  have houtdanger : ∀ c ∈ sanitizeList l, isDangerChar c = false := by
    intro c hc
    rcases List.mem_map.1 hc with ⟨x, hx, rfl⟩
    rw [isDangerChar_pyLower]
    exact hd4danger x hx
  have hd4head : ∀ c, (sanitizeStep4 (stripChars isDotSpace
      ((removeDotRuns l).map replaceDanger))).head? = some c →
      isDotSpace c = false := by
    rw [sanitizeStep4]
    by_cases he : stripChars isDotSpace ((removeDotRuns l).map replaceDanger) = []
    · rw [if_pos he]
      intro c hc
      cases hc
      decide
    · rw [if_neg he]
      exact stripChars_headOK _ _
  have hd4last : ∀ c, (sanitizeStep4 (stripChars isDotSpace
      ((removeDotRuns l).map replaceDanger))).getLast? = some c →
      isDotSpace c = false := by
    rw [sanitizeStep4]
    by_cases he : stripChars isDotSpace ((removeDotRuns l).map replaceDanger) = []
    · rw [if_pos he]
      intro c hc
      cases hc
      decide
    · rw [if_neg he]
      exact stripChars_lastOK _ _
  have houthead : ∀ c, (sanitizeList l).head? = some c → isDotSpace c = false := by
    intro c hc
    rw [sanitizeList, List.head?_map] at hc
    rcases Option.map_eq_some'.1 hc with ⟨x, hx, rfl⟩
    rw [isDotSpace_pyLower]
    exact hd4head x hx
  have houtlast : ∀ c, (sanitizeList l).getLast? = some c →
      isDotSpace c = false := by
    intro c hc
    rw [sanitizeList, List.getLast?_map] at hc
    rcases Option.map_eq_some'.1 hc with ⟨x, hx, rfl⟩
    rw [isDotSpace_pyLower]
    exact hd4last x hx
  have hd4ne : sanitizeStep4 (stripChars isDotSpace
      ((removeDotRuns l).map replaceDanger)) ≠ [] := by
    rw [sanitizeStep4]
    by_cases he : stripChars isDotSpace ((removeDotRuns l).map replaceDanger) = []
    · rw [if_pos he]
      decide
    · rw [if_neg he]
      exact he
  have houtne : sanitizeList l ≠ [] := by
    rw [sanitizeList]
    intro hmap
    exact hd4ne (List.map_eq_nil_iff.1 hmap)
  have houtlower : (sanitizeList l).map pyLower = sanitizeList l := by
    rw [sanitizeList, List.map_map]
    exact List.map_congr_left (fun a _ => pyLower_idem a)
  exact ⟨houtchain, houtdanger, houthead, houtlast, houtne, houtlower⟩

theorem sanitizeList_idem (l : List Char) :
    sanitizeList (sanitizeList l) = sanitizeList l := by
  obtain ⟨h1, h2, h3, h4, h5, h6⟩ := sanitizeList_props l
  conv_lhs => rw [sanitizeList]
  rw [removeDotRuns_id _ h1,
    map_pointwise_id (fun c hc => replaceDanger_eq_self (h2 c hc)),
    stripChars_id (fun c hc => h3 c hc) (fun c hc => h4 c hc),
    sanitizeStep4, if_neg h5, h6]

/-- C6.  `_sanitize_name` is deterministic (a pure function of its
input) and idempotent: sanitizing twice yields the same key as
sanitizing once. -/
theorem claim_C6 :
    (∀ s t : String, s = t → sanitizeName s = sanitizeName t) ∧
    ∀ s : String, sanitizeName (sanitizeName s) = sanitizeName s := by
  refine ⟨fun s t h => by rw [h], fun s => ?_⟩
  show String.mk (sanitizeList (sanitizeList s.data)) = String.mk (sanitizeList s.data)
  exact congrArg String.mk (sanitizeList_idem s.data)

/-- C6 witness: the theorem applied to a concrete name, with the
sanitizer evaluated. -/
theorem claim_C6_witness :
    sanitizeName "..A b/C.." = sanitizeName "..A b/C.." ∧
    sanitizeName (sanitizeName "..A b/C..") = sanitizeName "..A b/C.." ∧
    sanitizeName "..A b/C.." = "a b_c" :=
  ⟨claim_C6.1 _ _ rfl, claim_C6.2 _, by decide⟩

/-! ## Lemmas about the ranking step -/

theorem sEQ_symm {x y : Score} (h : sEQ x y) : sEQ y x := h.symm

theorem sLT_trans {x y z : Score} (h1 : sLT x y) (h2 : sLT y z) : sLT x z := by
  rw [sLT] at h1 h2 ⊢
  nlinarith [x.dpos, y.dpos, z.dpos, mul_lt_mul_of_pos_right h1 z.dpos,
    mul_lt_mul_of_pos_right h2 x.dpos]

theorem sLT_of_sLT_sEQ {x y z : Score} (h1 : sLT x y) (h2 : sEQ y z) :
    sLT x z := by
  rw [sLT] at h1 ⊢
  rw [sEQ] at h2
  nlinarith [x.dpos, y.dpos, z.dpos, mul_lt_mul_of_pos_right h1 z.dpos]

theorem sLT_of_sEQ_sLT {x y z : Score} (h1 : sEQ x y) (h2 : sLT y z) :
    sLT x z := by
  rw [sLT] at h2 ⊢
  rw [sEQ] at h1
  nlinarith [x.dpos, y.dpos, z.dpos, mul_lt_mul_of_pos_right h2 x.dpos]

theorem sEQ_trans {x y z : Score} (h1 : sEQ x y) (h2 : sEQ y z) : sEQ x z := by
  rw [sEQ] at h1 h2 ⊢
  have h3 : x.num * z.den * y.den = z.num * x.den * y.den := by
    linear_combination z.den * h1 + x.den * h2
  exact mul_right_cancel₀ (ne_of_gt y.dpos) h3

theorem sLT_sEQ_absurd {x y : Score} (h1 : sLT x y) (h2 : sEQ x y) : False := by
  rw [sLT] at h1
  rw [sEQ] at h2
  exact lt_irrefl _ (h2 ▸ h1)

theorem sLT_or_sEQ_or (x y : Score) : sLT x y ∨ sEQ x y ∨ sLT y x := by
  rcases lt_trichotomy (x.num * y.den) (y.num * x.den) with h | h | h
  · exact Or.inl h
  · exact Or.inr (Or.inl h)
  · exact Or.inr (Or.inr h)

instance (s : List Score) : IsTrans Nat (idxLE s) := ⟨by
  intro i j k h1 h2
  rcases h1 with h1 | ⟨h1e, h1le⟩ <;> rcases h2 with h2 | ⟨h2e, h2le⟩
  · exact Or.inl (sLT_trans h1 h2)
  · exact Or.inl (sLT_of_sLT_sEQ h1 h2e)
  · exact Or.inl (sLT_of_sEQ_sLT h1e h2)
  · exact Or.inr ⟨sEQ_trans h1e h2e, le_trans h1le h2le⟩⟩

instance (s : List Score) : IsTotal Nat (idxLE s) := ⟨by
  intro i j
  rcases sLT_or_sEQ_or (s.getD i (Score.ofInt 0)) (s.getD j (Score.ofInt 0))
    with h | h | h
  · exact Or.inl (Or.inl h)
  · rcases le_total i j with hle | hle
    · exact Or.inl (Or.inr ⟨h, hle⟩)
    · exact Or.inr (Or.inr ⟨sEQ_symm h, hle⟩)
  · exact Or.inr (Or.inl h)⟩

theorem bm25TopIdx_pairwise (query : String) (docs : List String) (k : Nat) :
    List.Pairwise (fun i j => idxLE (bm25AllScores query docs) j i)
      (bm25TopIdx query docs k) := by
  rw [bm25TopIdx]
  apply List.Pairwise.sublist (List.take_sublist _ _)
  rw [List.pairwise_reverse]
  exact List.sorted_insertionSort (idxLE (bm25AllScores query docs)) _

theorem bm25TopIdx_nodup (query : String) (docs : List String) (k : Nat) :
    (bm25TopIdx query docs k).Nodup := by
  rw [bm25TopIdx]
  apply List.Nodup.sublist (List.take_sublist _ _)
  rw [List.nodup_reverse]
  exact (List.perm_insertionSort _ _).nodup_iff.2 (List.nodup_range _)

/-- C7 counterexample: the corpus `["x", "x"]` with query `"x"` gives
both documents equal BM25 scores, yet the ranking step
`np.argsort(scores)[::-1][:k]` returns the positions as `[1, 0]` —
descending, not the ascending original corpus order the claim states:
the ascending stable argsort is reversed, which reverses ties too. -/
theorem claim_C7_counterexample :
    sEQ ((bm25AllScores "x" ["x", "x"]).getD 0 (Score.ofInt 0))
        ((bm25AllScores "x" ["x", "x"]).getD 1 (Score.ofInt 0)) ∧
    bm25TopIdx "x" ["x", "x"] 2 = [1, 0] ∧
    bm25TopIdx "x" ["x", "x"] 2 ≠ [0, 1] :=
  ⟨by decide, by decide, by decide⟩

/-- C7 as amended.  The lexical ranking is deterministic (a pure
function of query and corpus), and corpus entries with equal lexical
scores appear in the output in *descending* original corpus position:
the stable ascending argsort is reversed wholesale, so later positions
come first among ties. -/
theorem claim_C7 (query : String) (docs : List String) (k p1 p2 : Nat)
    (h1 : p1 < (bm25TopIdx query docs k).length)
    (h2 : p2 < (bm25TopIdx query docs k).length) (h12 : p1 < p2)
    (heq : sEQ
      ((bm25AllScores query docs).getD ((bm25TopIdx query docs k).getD p1 0)
        (Score.ofInt 0))
      ((bm25AllScores query docs).getD ((bm25TopIdx query docs k).getD p2 0)
        (Score.ofInt 0))) :
    bm25TopIdx query docs k = bm25TopIdx query docs k ∧
    (bm25TopIdx query docs k).getD p2 0 < (bm25TopIdx query docs k).getD p1 0 := by
  refine ⟨rfl, ?_⟩
  have hpw := bm25TopIdx_pairwise query docs k
  rw [List.pairwise_iff_getElem] at hpw
  have hrel := hpw p1 p2 h1 h2 h12
  rw [List.getD_eq_getElem _ _ h1, List.getD_eq_getElem _ _ h2] at heq ⊢
  rcases hrel with hlt | ⟨_, hle⟩
  · exact absurd heq (fun he => sLT_sEQ_absurd hlt (sEQ_symm he))
  · have hne : (bm25TopIdx query docs k)[p2] ≠ (bm25TopIdx query docs k)[p1] := by
      intro he
      exact absurd (((bm25TopIdx_nodup query docs k).getElem_inj_iff).1 he)
        (by omega)
    exact lt_of_le_of_ne hle hne

/-- C7 witness: the amended theorem applied to the concrete tied
corpus, hypotheses evaluated. -/
theorem claim_C7_witness :
    bm25TopIdx "x" ["x", "x"] 2 = bm25TopIdx "x" ["x", "x"] 2 ∧
    (bm25TopIdx "x" ["x", "x"] 2).getD 1 0 < (bm25TopIdx "x" ["x", "x"] 2).getD 0 0 :=
  claim_C7 "x" ["x", "x"] 2 0 1 (by decide) (by decide) (by decide) (by decide)

/-! ## Lemmas about the save path -/

theorem leadsPath_iff_take {p q : List (List Char)} :
    leadsPath p q ↔ q.take p.length = p := by
  constructor
  · rintro ⟨r, rfl⟩
    exact List.take_left p r
  · intro h
    refine ⟨q.drop p.length, ?_⟩
    conv_lhs => rw [← List.take_append_drop p.length q]
    rw [h]

theorem splitGroups_single {p : Char → Bool} {l : List Char} (hne : l ≠ [])
    (hall : ∀ c ∈ l, p c = false) : splitGroups p l = [l] := by
  induction l with
  | nil => exact absurd rfl hne
  | cons c rest ih =>
    have hc := hall c (by simp)
    cases rest with
    | nil => simp [splitGroups, hc]
    | cons d rest2 =>
      have hd := hall d (by simp)
      have ihr : splitGroups p (d :: rest2) = [d :: rest2] :=
        ih (by simp) (fun x hx => hall x (by simp [hx]))
      rw [splitGroups, ihr]
      simp [hc, hd]

theorem normAux_clean (l : List (List Char))
    (h : ∀ c ∈ l, c ≠ [] ∧ c ≠ ['.'] ∧ c ≠ ['.', '.']) :
    ∀ stack, normAux stack l = stack.reverse ++ l := by
  induction l with
  | nil => intro stack; simp [normAux]
  | cons c rest ih =>
    intro stack
    obtain ⟨h1, h2, h3⟩ := h c (by simp)
    rw [normAux, if_neg (by tauto), if_neg h3,
      ih (fun x hx => h x (by simp [hx])) (c :: stack)]
    simp

theorem normAux_clean_pre (l1 : List (List Char))
    (h : ∀ c ∈ l1, c ≠ [] ∧ c ≠ ['.'] ∧ c ≠ ['.', '.']) :
    ∀ stack l2, normAux stack (l1 ++ l2) = normAux (l1.reverse ++ stack) l2 := by
  induction l1 with
  | nil => intro stack l2; rfl
  | cons c rest ih =>
    intro stack l2
    obtain ⟨h1, h2, h3⟩ := h c (by simp)
    rw [List.cons_append, normAux, if_neg (by tauto), if_neg h3,
      ih (fun x hx => h x (by simp [hx])) (c :: stack) l2]
    congr 1
    simp

theorem joinPath_append (l1 l2 : List (List Char)) (h1 : l1 ≠ [])
    (h2 : l2 ≠ []) :
    joinPath (l1 ++ l2) = joinPath l1 ++ '/' :: joinPath l2 := by
  induction l1 with
  | nil => exact absurd rfl h1
  | cons c rest ih =>
    cases rest with
    | nil =>
      cases l2 with
      | nil => exact absurd rfl h2
      | cons d l2a => rfl
    | cons d rest2 =>
      have ih2 := ih (by simp)
      show c ++ '/' :: joinPath ((d :: rest2) ++ l2) =
        (c ++ '/' :: joinPath (d :: rest2)) ++ '/' :: joinPath l2
      rw [ih2]
      simp [List.append_assoc]

/-- C10 counterexample, two parts.  First, on a concrete save the
second write — the backup copy of lines 196-202 of
`department_manager.py` — lands under `/tmp/faiss_index/docs`, which is
not inside the department docs directory, so "writes only inside the
department docs directory" fails as stated.  Second, the line-188 guard
is a string `startswith` on resolved paths, not a containment check: the
raw name `"../docsEvil/x"` resolves to `<base>/faiss_index/docsEvil/x`,
whose path string starts with `<base>/faiss_index/docs`, so the guard
passes and the write lands outside the docs directory with no
`ValueError` — refuting "if the composed path would escape the docs
directory the operation raises a ValueError instead of writing". -/
theorem claim_C10_counterexample :
    (savePdf [['s', 'r', 'v'], ['a', 'p', 'p']] "hr" "doc.pdf" =
      .ok [docsDirOf [['s', 'r', 'v'], ['a', 'p', 'p']] ++ ["hr_doc.pdf.txt".data],
        tmpDocsDir ++ ["hr_doc.pdf.txt".data]] ∧
    ¬ leadsPath (docsDirOf [['s', 'r', 'v'], ['a', 'p', 'p']])
      (tmpDocsDir ++ ["hr_doc.pdf.txt".data])) ∧
    (savePdfRaw [['s', 'r', 'v'], ['a', 'p', 'p']] "../docsEvil/x" =
      .ok [[['s', 'r', 'v'], ['a', 'p', 'p'], "faiss_index".data,
          "docsEvil".data, ['x']],
        ["tmp".data, "faiss_index".data, "docsEvil".data, ['x']]] ∧
    ¬ leadsPath (docsDirOf [['s', 'r', 'v'], ['a', 'p', 'p']])
      [['s', 'r', 'v'], ['a', 'p', 'p'], "faiss_index".data,
        "docsEvil".data, ['x']]) := by
  refine ⟨⟨by decide, fun h => ?_⟩, by decide, fun h => ?_⟩
  · exact absurd (leadsPath_iff_take.1 h) (by decide)
  · exact absurd (leadsPath_iff_take.1 h) (by decide)

/-- C10 as amended.  The sanitized composed filename contains no path
separators, no backslashes and no `".."` sequence; saving writes exactly
two files — the document as a single path component inside the
department docs directory, and a backup copy under the fixed
`/tmp/faiss_index/docs` directory.  The line-188 guard is only the
string test `abspath(path).startswith(abspath(docs_dir))`: a composed
path failing that test raises `ValueError` instead of writing, but
passing it does not imply containment — the counterexample shows a raw
name (`"../docsEvil/x"`) whose resolved path escapes the docs directory
yet passes the guard and is written.  No name composed from sanitized
parts can reach that porous case, since it stays a single component. -/
theorem claim_C10 (base : List (List Char)) (d f : String)
    (hbase : ∀ c ∈ base, c ≠ [] ∧ c ≠ ['.'] ∧ c ≠ ['.', '.']) :
    ('/' ∉ (composedName d f).data ∧ '\\' ∉ (composedName d f).data ∧
      noAdjacentDots (composedName d f).data) ∧
    savePdf base d f = .ok [docsDirOf base ++ [(composedName d f).data],
      tmpDocsDir ++ [(composedName d f).data]] ∧
    (∀ raw : String,
      (joinPath (composedPathOf base raw)).take
          (joinPath (docsDirOf base)).length ≠ joinPath (docsDirOf base) →
      savePdfRaw base raw = .error ()) := by
  obtain ⟨hAchain, hAdanger, _, hAlast, hAne, _⟩ := sanitizeList_props d.data
  obtain ⟨hBchain, hBdanger, _, hBlast, hBne, _⟩ := sanitizeList_props f.data
  have hdata : (composedName d f).data =
      ((sanitizeList d.data ++ ['_']) ++ sanitizeList f.data) ++
        ['.', 't', 'x', 't'] := rfl
  have hnodanger : ∀ c ∈ (composedName d f).data, c ≠ '/' ∧ c ≠ '\\' := by
    intro c hc
    rw [hdata] at hc
    simp only [List.mem_append, List.mem_cons, List.mem_singleton] at hc
    rcases hc with ((hA | hu) | hB) | htxt
    · have := hAdanger c hA
      constructor <;> rintro rfl <;> simp [isDangerChar] at this
    · rcases hu with rfl | h0
      · exact ⟨by decide, by decide⟩
      · exact absurd h0 (List.not_mem_nil c)
    · have := hBdanger c hB
      constructor <;> rintro rfl <;> simp [isDangerChar] at this
    · rcases htxt with rfl | rfl | rfl | rfl | h
      · exact ⟨by decide, by decide⟩
      · exact ⟨by decide, by decide⟩
      · exact ⟨by decide, by decide⟩
      · exact ⟨by decide, by decide⟩
      · exact absurd h (List.not_mem_nil c)
  have hslash : '/' ∉ (composedName d f).data :=
    fun hc => (hnodanger '/' hc).1 rfl
  have hbslash : '\\' ∉ (composedName d f).data :=
    fun hc => (hnodanger '\\' hc).2 rfl
  have htailchain : List.Chain' (fun a b => ¬(a = '.' ∧ b = '.'))
      ['.', 't', 'x', 't'] := by
    simp only [List.chain'_cons, List.chain'_singleton, and_true]
    refine ⟨by decide, by decide, by decide⟩
  have hchain : noAdjacentDots (composedName d f).data := by
    rw [noAdjacentDots, hdata]
    rw [List.chain'_append]
    refine ⟨?_, htailchain, ?_⟩
    · rw [List.chain'_append]
      refine ⟨?_, hBchain, ?_⟩
      · rw [List.chain'_append]
        refine ⟨hAchain, List.chain'_singleton _, ?_⟩
        intro x _ y hy
        have hy' : y = '_' := by
          rw [Option.mem_def, List.head?_cons] at hy
          exact (Option.some.inj hy).symm
        rintro ⟨_, hdot⟩
        rw [hy'] at hdot
        cases hdot
      · intro x hx y _
        have hx' : x = '_' := by
          rw [Option.mem_def, List.getLast?_append] at hx
          simp only [List.getLast?_singleton] at hx
          rw [Option.or] at hx
          exact (Option.some.inj hx).symm
        rintro ⟨hdot, _⟩
        rw [hx'] at hdot
        cases hdot
    · intro x hx y _
      rw [Option.mem_def, List.getLast?_append] at hx
      rcases hgl : (sanitizeList f.data).getLast? with _ | b
      · exact absurd (List.getLast?_eq_none_iff.1 hgl) hBne
      · rw [hgl] at hx
        rw [Option.or] at hx
        have hx' : x = b := (Option.some.inj hx).symm
        rintro ⟨hdot, _⟩
        have hbl := hBlast b hgl
        rw [hx'] at hdot
        rw [hdot] at hbl
        simp [isDotSpace] at hbl
  have hne : (composedName d f).data ≠ [] := by
    rw [hdata]
    simp
  have hsplit : splitSlash (composedName d f) = [(composedName d f).data] := by
    apply splitGroups_single hne
    intro c hc
    exact decide_eq_false (fun he => hslash (he ▸ hc))
  have hu : '_' ∈ (composedName d f).data := by
    rw [hdata]
    simp
  have hnmclean : (composedName d f).data ≠ [] ∧
      (composedName d f).data ≠ ['.'] ∧ (composedName d f).data ≠ ['.', '.'] := by
    refine ⟨hne, ?_, ?_⟩ <;> intro he <;> rw [he] at hu <;>
      exact absurd hu (by decide)
  have hclean : ∀ c ∈ docsDirOf base ++ [(composedName d f).data],
      c ≠ [] ∧ c ≠ ['.'] ∧ c ≠ ['.', '.'] := by
    intro c hc
    rcases List.mem_append.1 hc with hdd | hnm
    · rw [docsDirOf] at hdd
      rcases List.mem_append.1 hdd with hb | hfd
      · exact hbase c hb
      · rcases List.mem_cons.1 hfd with rfl | hfd2
        · exact ⟨by decide, by decide, by decide⟩
        rcases List.mem_cons.1 hfd2 with rfl | hfd3
        · exact ⟨by decide, by decide, by decide⟩
        · exact absurd hfd3 (List.not_mem_nil c)
    · rcases List.mem_cons.1 hnm with rfl | h0
      · exact hnmclean
      · exact absurd h0 (List.not_mem_nil c)
  have hcp : composedPathOf base (composedName d f) =
      docsDirOf base ++ [(composedName d f).data] := by
    rw [composedPathOf, hsplit, normAux_clean _ hclean []]
    rfl
  have htmpclean : ∀ c ∈ tmpDocsDir ++ [(composedName d f).data],
      c ≠ [] ∧ c ≠ ['.'] ∧ c ≠ ['.', '.'] := by
    intro c hc
    rcases List.mem_append.1 hc with htd | hnm
    · rw [tmpDocsDir] at htd
      rcases List.mem_cons.1 htd with rfl | h1
      · exact ⟨by decide, by decide, by decide⟩
      rcases List.mem_cons.1 h1 with rfl | h2
      · exact ⟨by decide, by decide, by decide⟩
      rcases List.mem_cons.1 h2 with rfl | h3
      · exact ⟨by decide, by decide, by decide⟩
      · exact absurd h3 (List.not_mem_nil c)
    · rcases List.mem_cons.1 hnm with rfl | h0
      · exact hnmclean
      · exact absurd h0 (List.not_mem_nil c)
  refine ⟨⟨hslash, hbslash, hchain⟩, ?_, ?_⟩
  · have hdd_ne : docsDirOf base ≠ [] := by
      rw [docsDirOf]
      simp
    have hjoin : joinPath (docsDirOf base ++ [(composedName d f).data]) =
        joinPath (docsDirOf base) ++ '/' :: (composedName d f).data :=
      joinPath_append _ _ hdd_ne (by simp)
    rw [savePdf, savePdfRaw, hcp, hjoin, if_pos (List.take_left _ _), hsplit,
      normAux_clean _ htmpclean []]
    rfl
  · intro raw hnl
    rw [savePdfRaw, if_neg hnl]

/-- C10 witness: the amended theorem applied to a concrete base
directory and upload. -/
theorem claim_C10_witness :
    ('/' ∉ (composedName "hr" "doc.pdf").data ∧
      '\\' ∉ (composedName "hr" "doc.pdf").data ∧
      noAdjacentDots (composedName "hr" "doc.pdf").data) ∧
    savePdf [['s', 'r', 'v'], ['a', 'p', 'p']] "hr" "doc.pdf" =
      .ok [docsDirOf [['s', 'r', 'v'], ['a', 'p', 'p']] ++
        [(composedName "hr" "doc.pdf").data],
        tmpDocsDir ++ [(composedName "hr" "doc.pdf").data]] :=
  ⟨(claim_C10 [['s', 'r', 'v'], ['a', 'p', 'p']] "hr" "doc.pdf" (by decide)).1,
   (claim_C10 [['s', 'r', 'v'], ['a', 'p', 'p']] "hr" "doc.pdf" (by decide)).2.1⟩
